import Mathlib

/-!
Verification of the esmgen package-conversion CLI.

The development shallowly embeds the pure logic of the source files
(`src/cli.js` and the unnamed main CLI source): path manipulation is
modelled over explicit strings, the filesystem is modelled as an
existence predicate (for entry resolution) or an explicit directory
tree (for asset copying), and side-effecting functions return explicit
logs of the operations they perform.  Definitions come first, theorems
after them.
-/

namespace Esmgen

/-! ## Path model

`path.join(a, b)` is modelled as concatenation with a single separator
(the inputs the program joins are a directory path and a relative
entry, so no normalization applies).  `String.prototype.startsWith` is
a plain string-prefix test.  `path.extname` is applied by the source
only to directory-entry names (never full paths), and is modelled for
such names: the suffix from the last dot, unless there is no dot or
the only dot is the leading character.
-/

def pathJoin (a b : String) : String := a ++ "/" ++ b

def joinList (base : String) (rel : List String) : String :=
  rel.foldl pathJoin base

def jsStartsWith (s pre : String) : Bool := pre.data.isPrefixOf s.data

def slashFree (n : String) : Bool := n.data.all (fun c => c != '/')

def basename (s : String) : String :=
  String.mk ((s.data.reverse.takeWhile (fun c => c != '/')).reverse)

def extname (n : String) : String :=
  let post := n.data.reverse.takeWhile (fun c => c != '.')
  if post.length + 1 < n.data.length then String.mk ('.' :: post.reverse)
  else ""

/-- Relative component lists rendered as the character suffix that
`joinList` appends to its base. -/
def encodeRel (rel : List String) : List Char :=
  (rel.map (fun n => '/' :: n.data)).flatten

/-! ## HTML escaping (`escapeHtml` in the `serve` command)

The source chains five global single-character `String.replace` calls;
a global single-character replace is the flatten of a character map.
-/

def replaceAllChar (s : String) (c : Char) (r : String) : String :=
  String.mk ((s.data.map (fun ch => if ch = c then r.data else [ch])).flatten)

def escapeHtml (s : String) : String :=
  replaceAllChar (replaceAllChar (replaceAllChar (replaceAllChar
    (replaceAllChar s '&' "&amp;") '<' "&lt;") '>' "&gt;")
    '\"' "&quot;") '\'' "&#039;"

/-- The character-wise escaping the spec asks for, used to state that
the sequential replacement chain implements it. -/
def escapeChar (c : Char) : List Char :=
  if c = '&' then "&amp;".data
  else if c = '<' then "&lt;".data
  else if c = '>' then "&gt;".data
  else if c = '\"' then "&quot;".data
  else if c = '\'' then "&#039;".data
  else [c]

/-- The copy-pastable snippet the index page generates for one
subdirectory of the served root. -/
def scriptTagFor (packageName : String) : String :=
  "import \"/" ++ packageName ++ "/bundle.js\";"

/-! ## Entry Point Resolver

`findEntryFile` reads the package descriptor (`package.json`) at the
package root and walks an ordered candidate list.  The descriptor's
`exports.default` / `exports.require` values are arbitrary JSON values
in the source: the code flattens `[exports.default, exports.require]`
one level (`Array.prototype.flat`) and only entries that are strings
are existence-checked.  `packageJson.source || null` and
`packageJson.main || null` turn an absent or empty-string field into
no candidate.  The filesystem is an existence predicate on paths.

The unnamed main source's variant returns `null` when the descriptor
is missing or no candidate exists (permissive); `src/cli.js`'s variant
throws in both situations (strict).  Both share the identical
candidate walk, factored here as `entrySearch`.
-/

/-- A JSON value as far as the `exports` walk distinguishes them:
a string, an array, or anything else (including `undefined`). -/
inductive JVal where
  | jstr (s : String)
  | jarr (elems : List JVal)
  | jother

/-- One level of `Array.prototype.flat`. -/
def flatOne (v : JVal) : List JVal :=
  match v with
  | JVal.jarr l => l
  | v => [v]

structure ExportsField where
  dflt : JVal
  req : JVal

structure PackageDescriptor where
  exports : Option ExportsField
  source : Option String
  main : Option String

/-- JavaScript `field || null`: an absent or empty (falsy) string
yields no candidate. -/
def orNull (o : Option String) : Option String :=
  match o with
  | some s => if s = "" then none else some s
  | none => none

/-- `[exportFields.default, exportFields.require].flat()`, guarded by
`if (exportFields)`. -/
def exportsPaths (pj : PackageDescriptor) : List JVal :=
  match pj.exports with
  | some ef => flatOne ef.dflt ++ flatOne ef.req
  | none => []

def distFiles : List String := ["dist/index.js", "dist/index.cjs"]

/-- The shared candidate walk of both `findEntryFile` variants:
exports entries, then conventional dist files, then
`[sourceFile, mainFile, "index.js", "index.ts"]` with null entries
skipped.  Each stage returns as soon as a joined path exists. -/
def entrySearch (fsx : String → Bool) (inputDir : String)
    (pj : PackageDescriptor) : Option String :=
  match (exportsPaths pj).findSome? (fun v =>
      match v with
      | JVal.jstr s =>
        let resolvedPath := pathJoin inputDir s
        if fsx resolvedPath then some resolvedPath else none
      | _ => none) with
  | some resolvedPath => some resolvedPath
  | none =>
  match distFiles.findSome? (fun f =>
      let candidatePath := pathJoin inputDir f
      if fsx candidatePath then some candidatePath else none) with
  | some candidatePath => some candidatePath
  | none =>
  [orNull pj.source, orNull pj.main, some "index.js", some "index.ts"].findSome?
    (fun c =>
      match c with
      | some candidate =>
        let candidatePath := pathJoin inputDir candidate
        if fsx candidatePath then some candidatePath else none
      | none => none)

/-- Permissive variant (unnamed main source): `null` when the
descriptor is missing or nothing matches. -/
def findEntryFile (fsx : String → Bool) (inputDir : String)
    (desc : Option PackageDescriptor) : Option String :=
  match desc with
  | none => none
  | some pj => entrySearch fsx inputDir pj

inductive EntryErr where
  | descriptorNotFound
  | entryNotFound
deriving DecidableEq

/-- Strict variant (`src/cli.js`): throws when the descriptor is
missing, and throws `EntryNotFound` when no candidate exists. -/
def findEntryFileStrict (fsx : String → Bool) (inputDir : String)
    (desc : Option PackageDescriptor) : Except EntryErr String :=
  match desc with
  | none => Except.error EntryErr.descriptorNotFound
  | some pj =>
    match entrySearch fsx inputDir pj with
    | some p => Except.ok p
    | none => Except.error EntryErr.entryNotFound

/-- Only the string entries of the exports walk. -/
def jvalStr (v : JVal) : Option String :=
  match v with
  | JVal.jstr s => some s
  | _ => none

/-- The full ordered candidate list of the resolver. -/
def entryCandidates (pj : PackageDescriptor) : List String :=
  (exportsPaths pj).filterMap jvalStr
    ++ distFiles
    ++ ([orNull pj.source, orNull pj.main, some "index.js", some "index.ts"]).filterMap id

/-! ## Asset Selector (`copyAssets`)

The source directory is an explicit tree of named entries; the run is
modelled by its result log: the `(srcPath, destPath)` arguments of the
`fs.copyFileSync` calls in order, and the `excludedAssets` entries in
order.  `ensureDirectoryExists` has no bearing on either log and is
not modelled.
-/

inductive FsEntry where
  | file (name : String)
  | dir (name : String) (entries : List FsEntry)

def includedAssetsExtensions : List String :=
  [".css", ".png", ".jpg", ".jpeg", ".gif", ".svg"]

structure CopyLog where
  copies : List (String × String)
  excluded : List String

def copyAssets : List FsEntry → String → String → String → Bool → CopyLog
  | [], _, _, _, _ => ⟨[], []⟩
  | FsEntry.file name :: rest, srcDir, destDir, entryDir, includeAll =>
    let srcPath := pathJoin srcDir name
    let destPath := pathJoin destDir name
    let here : CopyLog :=
      if includeAll then
        if includedAssetsExtensions.contains (extname name) then
          ⟨[(srcPath, destPath)], []⟩
        else ⟨[], []⟩
      else
        if includedAssetsExtensions.contains (extname name) then
          if jsStartsWith srcPath entryDir then ⟨[(srcPath, destPath)], []⟩
          else ⟨[], [srcPath]⟩
        else ⟨[], []⟩
    let tail := copyAssets rest srcDir destDir entryDir includeAll
    ⟨here.copies ++ tail.copies, here.excluded ++ tail.excluded⟩
  | FsEntry.dir name children :: rest, srcDir, destDir, entryDir, includeAll =>
    let srcPath := pathJoin srcDir name
    let destPath := pathJoin destDir name
    let sub : CopyLog :=
      if includeAll then copyAssets children srcPath destPath entryDir true
      else if jsStartsWith srcPath entryDir then
        copyAssets children srcPath destPath entryDir false
      else ⟨[], []⟩
    let tail := copyAssets rest srcDir destDir entryDir includeAll
    ⟨sub.copies ++ tail.copies, sub.excluded ++ tail.excluded⟩

/-- Well-formed directory listings: every entry name is free of the
path separator, as real directory entries are. -/
def entriesNamesOk : List FsEntry → Bool
  | [] => true
  | FsEntry.file n :: rest => slashFree n && entriesNamesOk rest
  | FsEntry.dir n children :: rest =>
    slashFree n && entriesNamesOk children && entriesNamesOk rest

/-! ## Manifest Updater (`updatePackageJson`)

The sidecar `package.json` is modelled by its `esm.packages` table (an
association list in object-key order); the whole file is `none` when
the sidecar does not exist.  The run's filesystem side effects are
logged: the source performs a single `fs.writeFileSync` to the sidecar
path (and no rename), which the log records as a `write` operation.
-/

structure PackageJson where
  esm : Option (List (String × String))

inductive FsOp where
  | write (path : String) (content : PackageJson)
  | rename (fromPath toPath : String)

def isRename (op : FsOp) : Bool :=
  match op with
  | FsOp.rename _ _ => true
  | _ => false

/-- JavaScript object property assignment on the `packages` table:
overwrite in place when the key exists, append otherwise. -/
def setPackage (ps : List (String × String)) (pkg version : String) :
    List (String × String) :=
  if ps.any (fun kv => kv.fst == pkg) then
    ps.map (fun kv => if kv.fst == pkg then (pkg, version) else kv)
  else ps ++ [(pkg, version)]

/-- JavaScript `delete` of the key. -/
def removePackage (ps : List (String × String)) (pkg : String) :
    List (String × String) :=
  ps.filter (fun kv => kv.fst != pkg)

def lookupTable {α : Type} (l : List (String × α)) (k : String) : Option α :=
  (l.find? (fun kv => kv.fst == k)).map (fun kv => kv.snd)

/-- `updatePackageJson(pkg, action, version)`: read-modify-write of the
sidecar in `cwd`.  A missing sidecar is a silent no-op.  The `version`
argument is unused by the `remove` action (the source passes none).
Returns the new file contents and the filesystem-operation log. -/
def updatePackageJson (cwd : String) (file : Option PackageJson)
    (pkg action version : String) : Option PackageJson × List FsOp :=
  let packageJsonPath := pathJoin cwd "package.json"
  match file with
  | none => (none, [])
  | some packageJson =>
    let ps := packageJson.esm.getD []
    let newPs :=
      if action = "add" then setPackage ps pkg version
      else if action = "remove" then removePackage ps pkg
      else ps
    let newJson : PackageJson := ⟨some newPs⟩
    (some newJson, [FsOp.write packageJsonPath newJson])

/-! ## Metadata Resolver (`fetchPackageMetadata`)

The registry document carries the distribution-tags table and the
versions table.  The network fetch itself is outside the embedding
(the document is an input); the resolver's error is the thrown
`Version ... not found` condition.  When the `latest` tag is absent,
JavaScript indexes `data.versions` with `undefined`, which coerces to
the property key `"undefined"`.
-/

structure VersionRecord where
  version : String
  tarball : String

structure RegistryDoc where
  distTags : List (String × String)
  versions : List (String × VersionRecord)

inductive FetchError where
  | versionNotFound (pkg version : String)
deriving DecidableEq

/-- `version === "latest" ? data["dist-tags"][version] : version`. -/
def resolvedSelector (doc : RegistryDoc) (version : String) : String :=
  if version = "latest" then (lookupTable doc.distTags version).getD "undefined"
  else version

def fetchPackageMetadata (doc : RegistryDoc) (pkg version : String) :
    Except FetchError VersionRecord :=
  let targetVersion := resolvedSelector doc version
  match lookupTable doc.versions targetVersion with
  | some packageData => Except.ok packageData
  | none => Except.error (FetchError.versionNotFound pkg version)

/-! ## Resilient Static Server (`attemptToListen`)

One bind attempt per step: success listens on the attempted port, an
address-in-use error retries on the next port, any other bind error
stops with no retry.  The bind outcomes are an oracle indexed by
port.
-/

inductive BindOutcome where
  | success
  | addrInUse
  | otherError
deriving DecidableEq

inductive ServerPhase where
  | starting (port : Nat)
  | listening (port : Nat)
  | failed
deriving DecidableEq

def attemptToListenStep (attemptBind : Nat → BindOutcome) :
    ServerPhase → ServerPhase
  | ServerPhase.starting port =>
    match attemptBind port with
    | BindOutcome.success => ServerPhase.listening port
    | BindOutcome.addrInUse => ServerPhase.starting (port + 1)
    | BindOutcome.otherError => ServerPhase.failed
  | s => s

/-! ## The `remove` command

The command updates the manifest, then scans the output directory
listing and deletes the first existing directory whose name starts
with `pkg + "@"`, returning as soon as one is removed.
-/

def removeScan (fsx : String → Bool) (esmDirectory pkg : String) :
    List String → Option String
  | [] => none
  | d :: rest =>
    if jsStartsWith d (pkg ++ "@") then
      (let packageDir := pathJoin esmDirectory d
       if fsx packageDir then some packageDir else
         removeScan fsx esmDirectory pkg rest)
    else removeScan fsx esmDirectory pkg rest

def removeCommand (cwd : String) (file : Option PackageJson)
    (fsx : String → Bool) (esmDirectory pkg : String)
    (packageDirs : List String) :
    (Option PackageJson × List FsOp) × Option String :=
  (updatePackageJson cwd file pkg "remove" "", removeScan fsx esmDirectory pkg packageDirs)

/-! ## Auxiliary definitions used only in statements and proofs -/

/-- The list-of-characters form of one global single-character
replacement pass. -/
def replData (c : Char) (r : List Char) (l : List Char) : List Char :=
  (l.map (fun ch => if ch = c then r else [ch])).flatten

/-- The five replacement passes of `escapeHtml`, at the character-list
level. -/
def escapePasses (l : List Char) : List Char :=
  replData '\'' "&#039;".data (replData '\"' "&quot;".data
    (replData '>' "&gt;".data (replData '<' "&lt;".data
      (replData '&' "&amp;".data l))))

/-- A character the index page may not embed raw. -/
def htmlSafeChar (c : Char) : Bool :=
  c != '<' && c != '>' && c != '\"' && c != '\''

/-- The `packages` table of an optional manifest file. -/
def manifestPackages (file : Option PackageJson) : List (String × String) :=
  (file.bind (fun f => f.esm)).getD []

/-! ## Theorems: path model -/

theorem data_append (a b : String) : (a ++ b).data = a.data ++ b.data := rfl

theorem pathJoin_data (a b : String) :
    (pathJoin a b).data = a.data ++ '/' :: b.data := by
  show (a ++ "/" ++ b).data = a.data ++ '/' :: b.data
  rw [data_append, data_append]
  simp [show ("/" : String).data = ['/'] from rfl]

theorem encodeRel_nil : encodeRel [] = [] := rfl

theorem encodeRel_cons (n : String) (rel : List String) :
    encodeRel (n :: rel) = '/' :: (n.data ++ encodeRel rel) := by
  simp [encodeRel]

theorem joinList_data (rel : List String) :
    ∀ base : String, (joinList base rel).data = base.data ++ encodeRel rel := by
  induction rel with
  | nil => intro base; simp [joinList, encodeRel]
  | cons n rest ih =>
    intro base
    show (joinList (pathJoin base n) rest).data = _
    rw [ih (pathJoin base n), pathJoin_data, encodeRel_cons]
    simp

theorem joinList_cons (base : String) (n : String) (rel : List String) :
    joinList base (n :: rel) = joinList (pathJoin base n) rel := rfl

theorem joinList_singleton (base n : String) :
    joinList base [n] = pathJoin base n := rfl

theorem joinList_append_single (base n : String) (rel : List String) :
    joinList base (rel ++ [n]) = pathJoin (joinList base rel) n := by
  induction rel generalizing base with
  | nil => rfl
  | cons m rest ih => simpa [joinList_cons] using ih (pathJoin base m)

/-- Splitting a concatenation at the separator: if `a` and `b` are
slash-free and `x` and `y` are empty or start with a slash, then
`a ++ x = b ++ y` forces `a = b` and `x = y`. -/
theorem sep_split :
    ∀ (a b x y : List Char),
      (∀ c ∈ a, c ≠ '/') → (∀ c ∈ b, c ≠ '/') →
      (x = [] ∨ ∃ t, x = '/' :: t) → (y = [] ∨ ∃ t, y = '/' :: t) →
      a ++ x = b ++ y → a = b ∧ x = y := by
  intro a
  induction a with
  | nil =>
    intro b x y _ hb hx _ heq
    cases b with
    | nil => simpa using heq
    | cons d b2 =>
      simp only [List.nil_append] at heq
      rcases hx with rfl | ⟨t, rfl⟩
      · simp at heq
      · have hd : d = '/' := by
          have := congrArg List.head? heq
          simpa using this.symm
        exact absurd hd.symm (Ne.symm (hb d (by simp)))
  | cons c a2 ih =>
    intro b x y ha hb hx hy heq
    cases b with
    | nil =>
      simp only [List.nil_append] at heq
      rcases hy with rfl | ⟨t, rfl⟩
      · simp at heq
      · have hc : c = '/' := by
          have := congrArg List.head? heq
          simpa using this
        exact absurd hc (ha c (by simp))
    | cons d b2 =>
      simp only [List.cons_append, List.cons.injEq] at heq
      obtain ⟨rfl, heq2⟩ := heq
      have := ih b2 x y (fun e he => ha e (by simp [he]))
        (fun e he => hb e (by simp [he])) hx hy heq2
      exact ⟨by simp [this.1], this.2⟩

theorem encodeRel_head (rel : List String) :
    encodeRel rel = [] ∨ ∃ t, encodeRel rel = '/' :: t := by
  cases rel with
  | nil => left; rfl
  | cons n r => right; exact ⟨n.data ++ encodeRel r, encodeRel_cons n r⟩

theorem slashFree_spec {n : String} (h : slashFree n = true) :
    ∀ c ∈ n.data, c ≠ '/' := by
  intro c hc
  have := List.all_eq_true.mp h c hc
  simpa using this

theorem encodeRel_inj :
    ∀ r₁ r₂ : List String,
      (∀ n ∈ r₁, slashFree n = true) → (∀ n ∈ r₂, slashFree n = true) →
      encodeRel r₁ = encodeRel r₂ → r₁ = r₂ := by
  intro r₁
  induction r₁ with
  | nil =>
    intro r₂ _ _ heq
    cases r₂ with
    | nil => rfl
    | cons n r => rw [encodeRel_nil, encodeRel_cons] at heq; simp at heq
  | cons n₁ t₁ ih =>
    intro r₂ h₁ h₂ heq
    cases r₂ with
    | nil => rw [encodeRel_nil, encodeRel_cons] at heq; simp at heq
    | cons n₂ t₂ =>
      rw [encodeRel_cons, encodeRel_cons] at heq
      simp only [List.cons.injEq, true_and] at heq
      have hsplit := sep_split n₁.data n₂.data (encodeRel t₁) (encodeRel t₂)
        (slashFree_spec (h₁ n₁ (by simp)))
        (slashFree_spec (h₂ n₂ (by simp)))
        (encodeRel_head t₁) (encodeRel_head t₂) heq
      have hn : n₁ = n₂ := by
        cases n₁; cases n₂; exact congrArg String.mk (by simpa using hsplit.1)
      have ht : t₁ = t₂ := ih t₂
        (fun m hm => h₁ m (by simp [hm]))
        (fun m hm => h₂ m (by simp [hm])) hsplit.2
      simp [hn, ht]

theorem joinList_inj {base : String} {r₁ r₂ : List String}
    (h₁ : ∀ n ∈ r₁, slashFree n = true) (h₂ : ∀ n ∈ r₂, slashFree n = true)
    (heq : joinList base r₁ = joinList base r₂) : r₁ = r₂ := by
  have hd : (joinList base r₁).data = (joinList base r₂).data := by rw [heq]
  rw [joinList_data, joinList_data] at hd
  exact encodeRel_inj r₁ r₂ h₁ h₂ (List.append_cancel_left hd)

theorem takeWhile_append_of_all {p : Char → Bool} :
    ∀ (l : List Char) (r : List Char), (∀ c ∈ l, p c = true) → p '/' = false →
      List.takeWhile p (l ++ '/' :: r) = l := by
  intro l
  induction l with
  | nil => intro r _ hp; simp [List.takeWhile, hp]
  | cons c t ih =>
    intro r hl hp
    have hc : p c = true := hl c (by simp)
    simp only [List.cons_append, List.takeWhile_cons, hc, if_true]
    rw [ih r (fun e he => hl e (by simp [he])) hp]

theorem basename_pathJoin (a n : String) (h : slashFree n = true) :
    basename (pathJoin a n) = n := by
  unfold basename
  rw [pathJoin_data]
  rw [List.reverse_append, List.reverse_cons, List.append_assoc,
    List.singleton_append]
  have hall : ∀ c ∈ n.data.reverse, (fun c => c != '/') c = true := by
    intro c hc
    have := slashFree_spec h c (List.mem_reverse.mp hc)
    simpa using this
  rw [takeWhile_append_of_all n.data.reverse (List.reverse a.data) hall (by simp)]
  cases n
  simp

/-! ## Theorems: list search helpers -/

theorem findSome?_append {α β : Type} (l₁ l₂ : List α) (f : α → Option β) :
    (l₁ ++ l₂).findSome? f =
      match l₁.findSome? f with
      | some b => some b
      | none => l₂.findSome? f := by
  induction l₁ with
  | nil => simp [List.findSome?]
  | cons a t ih =>
    simp only [List.cons_append, List.findSome?_cons]
    cases f a <;> simp [ih]

theorem findSome?_filterMap {α β γ : Type} (l : List α) (g : α → Option β)
    (f : β → Option γ) :
    (l.filterMap g).findSome? f = l.findSome? (fun a => (g a).bind f) := by
  induction l with
  | nil => simp [List.findSome?]
  | cons a t ih =>
    cases hg : g a with
    | none => simp [List.filterMap_cons, hg, List.findSome?_cons, ih]
    | some b =>
      simp only [List.filterMap_cons, hg, List.findSome?_cons, Option.some_bind]
      cases hf : f b <;> simp [hf, ih]

theorem map_find?_eq_findSome? (fsx : String → Bool) (g : String → String)
    (l : List String) :
    (l.map g).find? fsx =
      l.findSome? (fun c => if fsx (g c) then some (g c) else none) := by
  induction l with
  | nil => simp [List.findSome?]
  | cons a t ih =>
    simp only [List.map_cons, List.find?_cons, List.findSome?_cons]
    cases h : fsx (g a) <;> simp [h, ih]

/-! ## Theorems: HTML escaping -/

theorem replData_append (c : Char) (r a b : List Char) :
    replData c r (a ++ b) = replData c r a ++ replData c r b := by
  simp [replData]

theorem escapePasses_append (a b : List Char) :
    escapePasses (a ++ b) = escapePasses a ++ escapePasses b := by
  simp [escapePasses, replData_append]

theorem escapePasses_single (ch : Char) : escapePasses [ch] = escapeChar ch := by
  by_cases h1 : ch = '&'
  · subst h1; rfl
  · by_cases h2 : ch = '<'
    · subst h2; rfl
    · by_cases h3 : ch = '>'
      · subst h3; rfl
      · by_cases h4 : ch = '\"'
        · subst h4; rfl
        · by_cases h5 : ch = '\''
          · subst h5; rfl
          · simp [escapePasses, replData, escapeChar, h1, h2, h3, h4, h5]

theorem escapePasses_eq_charwise (l : List Char) :
    escapePasses l = (l.map escapeChar).flatten := by
  induction l with
  | nil => rfl
  | cons ch t ih =>
    have hsplit : ch :: t = [ch] ++ t := rfl
    rw [hsplit, escapePasses_append, escapePasses_single, ih]
    simp

theorem escapeHtml_data (s : String) :
    (escapeHtml s).data = escapePasses s.data := rfl

theorem escapeChar_safe (ch : Char) : (escapeChar ch).all htmlSafeChar = true := by
  unfold escapeChar
  split_ifs with h1 h2 h3 h4 h5
  · decide
  · decide
  · decide
  · decide
  · decide
  · simp [htmlSafeChar, h2, h3, h4, h5]

/-- C4: every snippet generated for the server's index page from a
subdirectory name is escaped before embedding: the embedded text is
the character-wise HTML escaping of the raw snippet (so each of
`&`, `<`, `>`, `"`, `'` is replaced by its entity), and the embedded
text contains no raw `<`, `>`, `"` or `'`. -/
theorem c4_snippets_escaped (packageName : String) :
    (escapeHtml (scriptTagFor packageName)).data
        = ((scriptTagFor packageName).data.map escapeChar).flatten
      ∧ (escapeHtml (scriptTagFor packageName)).data.all htmlSafeChar = true := by
  constructor
  · rw [escapeHtml_data, escapePasses_eq_charwise]
  · rw [escapeHtml_data, escapePasses_eq_charwise]
    rw [List.all_eq_true]
    intro c hc
    rw [List.mem_flatten] at hc
    obtain ⟨l, hl, hcl⟩ := hc
    rw [List.mem_map] at hl
    obtain ⟨ch, _, rfl⟩ := hl
    exact List.all_eq_true.mp (escapeChar_safe ch) c hcl

/-! ## Theorems: Entry Point Resolver -/

theorem entrySearch_eq (fsx : String → Bool) (inputDir : String)
    (pj : PackageDescriptor) :
    entrySearch fsx inputDir pj
      = (entryCandidates pj).findSome? (fun c =>
          if fsx (pathJoin inputDir c) then some (pathJoin inputDir c) else none) := by
  unfold entrySearch entryCandidates
  rw [findSome?_append, findSome?_append, findSome?_filterMap, findSome?_filterMap]
  have e1 : (fun a : JVal => (jvalStr a).bind (fun c =>
        if fsx (pathJoin inputDir c) then some (pathJoin inputDir c) else none))
      = (fun v : JVal => match v with
        | JVal.jstr s =>
          let resolvedPath := pathJoin inputDir s
          if fsx resolvedPath then some resolvedPath else none
        | _ => none) := by
    funext v; cases v <;> rfl
  have e2 : (fun a : Option String => (id a).bind (fun c =>
        if fsx (pathJoin inputDir c) then some (pathJoin inputDir c) else none))
      = (fun c : Option String => match c with
        | some candidate =>
          let candidatePath := pathJoin inputDir candidate
          if fsx candidatePath then some candidatePath else none
        | none => none) := by
    funext c; cases c <;> rfl
  have e3 : (fun c : String =>
        if fsx (pathJoin inputDir c) then some (pathJoin inputDir c) else none)
      = (fun f : String =>
          let candidatePath := pathJoin inputDir f
          if fsx candidatePath then some candidatePath else none) := rfl
  rw [e1, e2, e3]
  cases hA : List.findSome? (fun v : JVal =>
      match v with
      | JVal.jstr s =>
        let resolvedPath := pathJoin inputDir s
        if fsx resolvedPath then some resolvedPath else none
      | _ => none) (exportsPaths pj) with
  | some b => simp [hA]
  | none =>
    simp only [hA]
    cases hD : List.findSome? (fun f : String =>
        let candidatePath := pathJoin inputDir f
        if fsx candidatePath then some candidatePath else none) distFiles with
    | some b => simp [hD]
    | none => simp [hD]

/-- C1: for a package root whose descriptor exists, the resolver
returns the first existing file over the strict candidate order
(exports.default entries, exports.require entries, dist/index.js,
dist/index.cjs, source, main, index.js, index.ts, each joined against
the root); in particular, on a root exposing all four of
exports.default, dist/index.js, main and index.js simultaneously,
exports.default wins, then dist/index.js, then main, then index.js. -/
theorem c1_entry_resolver_order :
    (∀ (fsx : String → Bool) (inputDir : String) (pj : PackageDescriptor),
        findEntryFile fsx inputDir (some pj)
          = ((entryCandidates pj).map (pathJoin inputDir)).find? fsx)
    ∧ findEntryFile
        (fun p => (["r/lib/e.js", "r/dist/index.js", "r/main.js", "r/index.js"] : List String).contains p)
        "r" (some ⟨some ⟨JVal.jstr "lib/e.js", JVal.jother⟩, none, some "main.js"⟩)
        = some "r/lib/e.js"
    ∧ findEntryFile
        (fun p => (["r/dist/index.js", "r/main.js", "r/index.js"] : List String).contains p)
        "r" (some ⟨some ⟨JVal.jstr "lib/e.js", JVal.jother⟩, none, some "main.js"⟩)
        = some "r/dist/index.js"
    ∧ findEntryFile
        (fun p => (["r/main.js", "r/index.js"] : List String).contains p)
        "r" (some ⟨some ⟨JVal.jstr "lib/e.js", JVal.jother⟩, none, some "main.js"⟩)
        = some "r/main.js"
    ∧ findEntryFile
        (fun p => (["r/index.js"] : List String).contains p)
        "r" (some ⟨some ⟨JVal.jstr "lib/e.js", JVal.jother⟩, none, some "main.js"⟩)
        = some "r/index.js" := by
  refine ⟨?_, rfl, rfl, rfl, rfl⟩
  intro fsx inputDir pj
  show entrySearch fsx inputDir pj = _
  rw [map_find?_eq_findSome? fsx (pathJoin inputDir)]
  exact entrySearch_eq fsx inputDir pj

/-- C9: whenever the permissive resolver variant returns a path, the
strict variant returns the same path; when the descriptor is present
and no candidate exists, the permissive variant yields absent and the
strict variant fails with EntryNotFound. -/
theorem c9_strict_refines_permissive (fsx : String → Bool) (inputDir : String)
    (pj : PackageDescriptor) :
    (∀ p, findEntryFile fsx inputDir (some pj) = some p →
        findEntryFileStrict fsx inputDir (some pj) = Except.ok p)
    ∧ (findEntryFile fsx inputDir (some pj) = none →
        findEntryFileStrict fsx inputDir (some pj) = Except.error EntryErr.entryNotFound) := by
  constructor
  · intro p hp
    simp only [findEntryFile] at hp
    simp only [findEntryFileStrict, hp]
  · intro hp
    simp only [findEntryFile] at hp
    simp only [findEntryFileStrict, hp]

/-- Witness for C9 at concrete inputs: a filesystem holding only
`r/index.js` (both variants agree on it) and an empty filesystem (the
strict variant reports EntryNotFound where the permissive one is
absent). -/
theorem c9_strict_refines_permissive_witness :
    findEntryFileStrict (fun p => p == "r/index.js") "r" (some ⟨none, none, none⟩)
        = Except.ok "r/index.js"
    ∧ findEntryFileStrict (fun _ => false) "r" (some ⟨none, none, none⟩)
        = Except.error EntryErr.entryNotFound :=
  ⟨(c9_strict_refines_permissive (fun p => p == "r/index.js") "r" ⟨none, none, none⟩).1
      "r/index.js" rfl,
   (c9_strict_refines_permissive (fun _ => false) "r" ⟨none, none, none⟩).2 rfl⟩

/-! ## Theorems: Metadata Resolver -/

/-- C5: the resolver resolves the literal selector "latest" through
the distribution-tags table and treats any other selector as already
concrete; it fails with VersionNotFound exactly when the resolved
concrete version has no entry in the versions table; on success the
returned record is that table entry and (for a well-formed registry
document, whose records carry their own key as version) its version
field equals the table key exactly. -/
theorem c5_metadata_resolver (doc : RegistryDoc) (pkg version : String)
    (hwf : ∀ k r, lookupTable doc.versions k = some r → r.version = k) :
    (fetchPackageMetadata doc pkg version
        = Except.error (FetchError.versionNotFound pkg version)
      ↔ lookupTable doc.versions (resolvedSelector doc version) = none)
    ∧ (∀ r, fetchPackageMetadata doc pkg version = Except.ok r →
        lookupTable doc.versions (resolvedSelector doc version) = some r
          ∧ r.version = resolvedSelector doc version)
    ∧ (version ≠ "latest" → resolvedSelector doc version = version)
    ∧ (∀ v, version = "latest" → lookupTable doc.distTags "latest" = some v →
        resolvedSelector doc version = v) := by
  refine ⟨?_, ?_, ?_, ?_⟩
  · unfold fetchPackageMetadata
    cases h : lookupTable doc.versions (resolvedSelector doc version) <;> simp [h]
  · intro r hr
    have hr2 : (match lookupTable doc.versions (resolvedSelector doc version) with
        | some packageData => Except.ok packageData
        | none => Except.error (FetchError.versionNotFound pkg version))
        = Except.ok r := hr
    cases h : lookupTable doc.versions (resolvedSelector doc version) with
    | none => rw [h] at hr2; simp at hr2
    | some packageData =>
      rw [h] at hr2
      simp only [Except.ok.injEq] at hr2
      subst hr2
      exact ⟨rfl, hwf _ _ h⟩
  · intro hne
    unfold resolvedSelector
    simp [hne]
  · intro v hv htag
    subst hv
    unfold resolvedSelector
    simp [htag]

/-- Witness for C5 at a concrete registry document: dist-tags maps
latest to 1.3.0 and the versions table holds exactly that release. -/
theorem c5_metadata_resolver_witness :
    lookupTable (RegistryDoc.mk [("latest", "1.3.0")]
        [("1.3.0", VersionRecord.mk "1.3.0" "u")]).versions
      (resolvedSelector (RegistryDoc.mk [("latest", "1.3.0")]
        [("1.3.0", VersionRecord.mk "1.3.0" "u")]) "latest")
      = some (VersionRecord.mk "1.3.0" "u")
    ∧ (VersionRecord.mk "1.3.0" "u").version
        = resolvedSelector (RegistryDoc.mk [("latest", "1.3.0")]
            [("1.3.0", VersionRecord.mk "1.3.0" "u")]) "latest" := by
  have hwf : ∀ k r, lookupTable (RegistryDoc.mk [("latest", "1.3.0")]
      [("1.3.0", VersionRecord.mk "1.3.0" "u")]).versions k = some r →
      r.version = k := by
    intro k r hk
    by_cases hke : ("1.3.0" : String) = k
    · subst hke
      unfold lookupTable at hk
      simp at hk
      simp [← hk]
    · unfold lookupTable at hk
      have hbeq : (("1.3.0" : String) == k) = false := by
        simp [hke]
      simp [hbeq] at hk
  exact (c5_metadata_resolver (RegistryDoc.mk [("latest", "1.3.0")]
      [("1.3.0", VersionRecord.mk "1.3.0" "u")]) "left-pad" "latest" hwf).2.1
    (VersionRecord.mk "1.3.0" "u") rfl

/-! ## Theorems: Resilient Static Server -/

/-- C6: one bind-loop step takes Starting(p) to Listening(p) on a
successful bind, to Starting(p+1) on an address-in-use error, and to
Failed on any other bind error; Failed is absorbing (no further
retry), retries are unbounded when every port is in use, and after a
non-address-in-use error every later step stays Failed. -/
theorem c6_bind_loop (attemptBind : Nat → BindOutcome) (port : Nat) :
    (attemptBind port = BindOutcome.success →
        attemptToListenStep attemptBind (ServerPhase.starting port)
          = ServerPhase.listening port)
    ∧ (attemptBind port = BindOutcome.addrInUse →
        attemptToListenStep attemptBind (ServerPhase.starting port)
          = ServerPhase.starting (port + 1))
    ∧ (attemptBind port = BindOutcome.otherError →
        attemptToListenStep attemptBind (ServerPhase.starting port)
          = ServerPhase.failed)
    ∧ attemptToListenStep attemptBind ServerPhase.failed = ServerPhase.failed
    ∧ ((∀ q, attemptBind q = BindOutcome.addrInUse) → ∀ k,
        (attemptToListenStep attemptBind)^[k] (ServerPhase.starting port)
          = ServerPhase.starting (port + k))
    ∧ (attemptBind port = BindOutcome.otherError → ∀ k, 1 ≤ k →
        (attemptToListenStep attemptBind)^[k] (ServerPhase.starting port)
          = ServerPhase.failed) := by
  have hfail : ∀ k, (attemptToListenStep attemptBind)^[k] ServerPhase.failed
      = ServerPhase.failed := by
    intro k
    induction k with
    | zero => rfl
    | succ j ih => rw [Function.iterate_succ_apply, show attemptToListenStep
        attemptBind ServerPhase.failed = ServerPhase.failed from rfl, ih]
  refine ⟨?_, ?_, ?_, rfl, ?_, ?_⟩
  · intro h; simp [attemptToListenStep, h]
  · intro h; simp [attemptToListenStep, h]
  · intro h; simp [attemptToListenStep, h]
  · intro hall k
    induction k generalizing port with
    | zero => rfl
    | succ j ih =>
      rw [Function.iterate_succ_apply]
      have hstep : attemptToListenStep attemptBind (ServerPhase.starting port)
          = ServerPhase.starting (port + 1) := by
        simp [attemptToListenStep, hall port]
      rw [hstep, ih (port + 1)]
      congr 1
      omega
  · intro h k hk
    cases k with
    | zero => omega
    | succ j =>
      rw [Function.iterate_succ_apply]
      have hstep : attemptToListenStep attemptBind (ServerPhase.starting port)
          = ServerPhase.failed := by
        simp [attemptToListenStep, h]
      rw [hstep, hfail j]

/-- Witness for C6 at a concrete bind oracle: ports below 3002 are in
use, 3002 binds, and with an oracle that always reports in-use five
steps reach Starting(3005). -/
theorem c6_bind_loop_witness :
    attemptToListenStep
        (fun q => if q < 3002 then BindOutcome.addrInUse
          else if q = 3002 then BindOutcome.success else BindOutcome.otherError)
        (ServerPhase.starting 3000) = ServerPhase.starting 3001
    ∧ attemptToListenStep
        (fun q => if q < 3002 then BindOutcome.addrInUse
          else if q = 3002 then BindOutcome.success else BindOutcome.otherError)
        (ServerPhase.starting 3002) = ServerPhase.listening 3002
    ∧ attemptToListenStep
        (fun q => if q < 3002 then BindOutcome.addrInUse
          else if q = 3002 then BindOutcome.success else BindOutcome.otherError)
        (ServerPhase.starting 3003) = ServerPhase.failed
    ∧ (attemptToListenStep (fun _ => BindOutcome.addrInUse))^[5]
        (ServerPhase.starting 3000) = ServerPhase.starting 3005 :=
  ⟨((c6_bind_loop (fun q => if q < 3002 then BindOutcome.addrInUse
      else if q = 3002 then BindOutcome.success else BindOutcome.otherError)
      3000).2.1 (by decide)),
   ((c6_bind_loop (fun q => if q < 3002 then BindOutcome.addrInUse
      else if q = 3002 then BindOutcome.success else BindOutcome.otherError)
      3002).1 (by decide)),
   ((c6_bind_loop (fun q => if q < 3002 then BindOutcome.addrInUse
      else if q = 3002 then BindOutcome.success else BindOutcome.otherError)
      3003).2.2.1 (by decide)),
   (((c6_bind_loop (fun _ => BindOutcome.addrInUse) 3000).2.2.2.2.1
      (fun _ => rfl) 5).trans (by rfl))⟩

/-! ## Theorems: Manifest Updater -/

theorem find?_append_none {α : Type} (l₁ l₂ : List α) (p : α → Bool)
    (h : l₁.find? p = none) : (l₁ ++ l₂).find? p = l₂.find? p := by
  induction l₁ with
  | nil => simp
  | cons a t ih =>
    rw [List.cons_append]
    cases hp : p a <;> simp only [List.find?_cons, hp] at h ⊢
    · exact ih h
    · exact absurd h (by simp)

theorem lookupTable_removePackage (ps : List (String × String)) (pkg : String) :
    lookupTable (removePackage ps pkg) pkg = none := by
  unfold lookupTable removePackage
  have hnone : (ps.filter (fun kv => kv.fst != pkg)).find?
      (fun kv => kv.fst == pkg) = none := by
    rw [List.find?_eq_none]
    intro x hx
    have hmem := List.of_mem_filter hx
    simp only [bne_iff_ne, ne_eq] at hmem
    simp [hmem]
  rw [hnone]
  rfl

theorem removePackage_idem (ps : List (String × String)) (pkg : String) :
    removePackage (removePackage ps pkg) pkg = removePackage ps pkg := by
  unfold removePackage
  rw [List.filter_filter]
  simp

theorem lookupTable_map_overwrite (ps : List (String × String)) (pkg v : String) :
    lookupTable (ps.map (fun kv => if kv.fst == pkg then (pkg, v) else kv)) pkg
      = if ps.any (fun kv => kv.fst == pkg) then some v else none := by
  induction ps with
  | nil => rfl
  | cons kv t ih =>
    unfold lookupTable at ih ⊢
    cases hk : (kv.fst == pkg) with
    | true =>
      have hfst := eq_of_beq hk
      simp [List.find?_cons, hk, hfst, List.any_cons]
    | false =>
      simp only [List.map_cons, List.any_cons, hk, Bool.false_or,
        Bool.false_eq_true, if_false]
      simp only [List.find?_cons, hk]
      exact ih

theorem lookupTable_setPackage (ps : List (String × String)) (pkg v : String) :
    lookupTable (setPackage ps pkg v) pkg = some v := by
  unfold setPackage
  cases hAny : ps.any (fun kv => kv.fst == pkg) with
  | true =>
    rw [if_pos rfl]
    rw [lookupTable_map_overwrite, hAny]
    rfl
  | false =>
    rw [if_neg (by simp)]
    unfold lookupTable
    have h1 : ps.find? (fun kv => kv.fst == pkg) = none := by
      rw [List.find?_eq_none]
      intro x hx hbeq
      have : ps.any (fun kv => kv.fst == pkg) = true :=
        List.any_eq_true.mpr ⟨x, hx, hbeq⟩
      rw [hAny] at this
      exact absurd this (by simp)
    rw [find?_append_none ps [(pkg, v)] _ h1]
    simp

theorem setPackage_keys_nodup (ps : List (String × String)) (pkg v : String)
    (h : (ps.map Prod.fst).Nodup) :
    ((setPackage ps pkg v).map Prod.fst).Nodup := by
  unfold setPackage
  cases hAny : ps.any (fun kv => kv.fst == pkg) with
  | true =>
    rw [if_pos rfl]
    have hkeys : (ps.map (fun kv => if kv.fst == pkg then (pkg, v) else kv)).map
        Prod.fst = ps.map Prod.fst := by
      rw [List.map_map]
      apply List.map_congr_left
      intro kv _
      by_cases hk : kv.fst = pkg
      · simp [hk]
      · simp [hk]
    rw [hkeys]
    exact h
  | false =>
    rw [if_neg (by simp)]
    rw [List.map_append]
    have hsingle : (([(pkg, v)] : List (String × String)).map Prod.fst) = [pkg] := rfl
    rw [hsingle]
    rw [List.nodup_append]
    refine ⟨h, List.nodup_singleton pkg, ?_⟩
    intro a ha hb
    rw [List.mem_singleton] at hb
    rw [List.mem_map] at ha
    obtain ⟨kv, hkv, hfst⟩ := ha
    have hany2 : ps.any (fun kv => kv.fst == pkg) = true :=
      List.any_eq_true.mpr ⟨kv, hkv, by simp [hfst, hb]⟩
    rw [hAny] at hany2
    exact absurd hany2 (by simp)

/-- C8: with the sidecar present, add("pkg", v) then remove("pkg")
leaves the packages mapping without the key; repeating remove is a
content-level no-op rather than an error; add sets or overwrites the
entry (the key then maps to the new version, and distinct keys stay
unique, so a name maps to at most one version); remove deletes the
entry when present. -/
theorem c8_manifest_add_remove (cwd : String) (pj : PackageJson) (pkg v : String)
    (hnodup : ((pj.esm.getD []).map Prod.fst).Nodup) :
    lookupTable (manifestPackages
        (updatePackageJson cwd
          (updatePackageJson cwd (some pj) pkg "add" v).fst pkg "remove" "").fst) pkg
      = none
    ∧ (updatePackageJson cwd
        (updatePackageJson cwd
          (updatePackageJson cwd (some pj) pkg "add" v).fst pkg "remove" "").fst
        pkg "remove" "").fst
      = (updatePackageJson cwd
          (updatePackageJson cwd (some pj) pkg "add" v).fst pkg "remove" "").fst
    ∧ lookupTable (setPackage (pj.esm.getD []) pkg v) pkg = some v
    ∧ ((setPackage (pj.esm.getD []) pkg v).map Prod.fst).Nodup
    ∧ lookupTable (removePackage (pj.esm.getD []) pkg) pkg = none := by
  have hadd : (updatePackageJson cwd (some pj) pkg "add" v).fst
      = some ⟨some (setPackage (pj.esm.getD []) pkg v)⟩ := by
    simp [updatePackageJson]
  have hremove : (updatePackageJson cwd
      (some (PackageJson.mk (some (setPackage (pj.esm.getD []) pkg v))))
      pkg "remove" "").fst
      = some ⟨some (removePackage (setPackage (pj.esm.getD []) pkg v) pkg)⟩ := by
    simp [updatePackageJson]
  refine ⟨?_, ?_, lookupTable_setPackage _ _ _,
    setPackage_keys_nodup _ _ _ hnodup, lookupTable_removePackage _ _⟩
  · rw [hadd, hremove]
    show lookupTable (removePackage (setPackage (pj.esm.getD []) pkg v) pkg) pkg
        = none
    exact lookupTable_removePackage _ _
  · rw [hadd, hremove]
    have : (updatePackageJson cwd
        (some (PackageJson.mk (some (removePackage
          (setPackage (pj.esm.getD []) pkg v) pkg)))) pkg "remove" "").fst
        = some ⟨some (removePackage (removePackage
            (setPackage (pj.esm.getD []) pkg v) pkg) pkg)⟩ := by
      simp [updatePackageJson]
    rw [this, removePackage_idem]

/-- Witness for C8 at a concrete manifest holding one other package. -/
theorem c8_manifest_add_remove_witness :
    lookupTable (manifestPackages
        (updatePackageJson "w"
          (updatePackageJson "w"
            (some (PackageJson.mk (some [("left-pad", "1.3.0")])))
            "pkg" "add" "1.2.3").fst
          "pkg" "remove" "").fst) "pkg"
      = none
    ∧ lookupTable (setPackage [("left-pad", "1.3.0")] "pkg" "1.2.3") "pkg"
        = some "1.2.3" :=
  ⟨(c8_manifest_add_remove "w" (PackageJson.mk (some [("left-pad", "1.3.0")]))
      "pkg" "1.2.3" (by simp)).1,
   (c8_manifest_add_remove "w" (PackageJson.mk (some [("left-pad", "1.3.0")]))
      "pkg" "1.2.3" (by simp)).2.2.1⟩

/-- C3 counterexample: at a concrete existing sidecar, the updater's
filesystem-operation log is a single direct write to the sidecar path
itself — there is no write to a temporary path and no rename, so the
update is not performed by writing to a temporary path and renaming. -/
theorem c3_no_rename_counterexample :
    (updatePackageJson "w" (some (PackageJson.mk (some []))) "pkg" "add" "1.2.3").snd
        = [FsOp.write (pathJoin "w" "package.json")
            (PackageJson.mk (some [("pkg", "1.2.3")]))]
    ∧ ((updatePackageJson "w" (some (PackageJson.mk (some [])))
        "pkg" "add" "1.2.3").snd.any isRename) = false :=
  ⟨rfl, rfl⟩

/-- C3 amended: every Manifest Updater run on an existing sidecar
performs exactly one filesystem operation, a direct write of the full
new content to the sidecar path; no rename is ever performed (and a
missing sidecar produces no operation at all), so the temporary-path-
and-rename mechanism is absent. -/
theorem c3_amended_direct_write (cwd : String) (pj : PackageJson)
    (pkg act v : String) :
    (∃ c, (updatePackageJson cwd (some pj) pkg act v).snd
        = [FsOp.write (pathJoin cwd "package.json") c])
    ∧ (∀ op ∈ (updatePackageJson cwd (some pj) pkg act v).snd,
        isRename op = false)
    ∧ (updatePackageJson cwd none pkg act v).snd = [] := by
  refine ⟨⟨_, rfl⟩, ?_, rfl⟩
  intro op hop
  have hc : (updatePackageJson cwd (some pj) pkg act v).snd
      = [FsOp.write (pathJoin cwd "package.json")
          (PackageJson.mk (some (
            if act = "add" then setPackage (pj.esm.getD []) pkg v
            else if act = "remove" then removePackage (pj.esm.getD []) pkg
            else pj.esm.getD [])))] := rfl
  rw [hc] at hop
  rw [List.mem_singleton] at hop
  subst hop
  rfl

/-- Witness for C3's amended theorem at a concrete sidecar. -/
theorem c3_amended_direct_write_witness :
    isRename (FsOp.write (pathJoin "w" "package.json")
        (PackageJson.mk (some [("pkg", "1.2.3")]))) = false
    ∧ (updatePackageJson "w" none "pkg" "add" "1.2.3").snd = [] :=
  ⟨(c3_amended_direct_write "w" (PackageJson.mk (some [])) "pkg" "add" "1.2.3").2.1
      (FsOp.write (pathJoin "w" "package.json")
        (PackageJson.mk (some [("pkg", "1.2.3")])))
      (by exact List.mem_singleton.mpr rfl),
   (c3_amended_direct_write "w" (PackageJson.mk (some [])) "pkg" "add" "1.2.3").2.2⟩

/-! ## Theorems: the `remove` command -/

/-- C10: the remove command deletes at most one versioned output
directory: the scan removes exactly the first existing directory of
the listing whose name starts with the package name followed by "@"
(so later matching directories are untouched), while the manifest
entry for the name is deleted. -/
theorem c10_remove_first_match (cwd : String) (file : Option PackageJson)
    (fsx : String → Bool) (esmDirectory pkg : String) (dirs : List String) :
    (removeCommand cwd file fsx esmDirectory pkg dirs).snd
        = (dirs.find? (fun d =>
            jsStartsWith d (pkg ++ "@") && fsx (pathJoin esmDirectory d))).map
              (pathJoin esmDirectory)
    ∧ (∀ pj, file = some pj →
        lookupTable (manifestPackages
          (removeCommand cwd file fsx esmDirectory pkg dirs).fst.fst) pkg = none) := by
  constructor
  · show removeScan fsx esmDirectory pkg dirs = _
    induction dirs with
    | nil => rfl
    | cons d rest ih =>
      cases hs : jsStartsWith d (pkg ++ "@") with
      | false => simp only [removeScan, List.find?_cons, hs]; simpa using ih
      | true =>
        cases hf : fsx (pathJoin esmDirectory d) with
        | true => simp [removeScan, List.find?_cons, hs, hf]
        | false => simp only [removeScan, List.find?_cons, hs, hf]; simpa using ih
  · intro pj hf
    subst hf
    show lookupTable (manifestPackages
      (updatePackageJson cwd (some pj) pkg "remove" "").fst) pkg = none
    have hrm : (updatePackageJson cwd (some pj) pkg "remove" "").fst
        = some ⟨some (removePackage (pj.esm.getD []) pkg)⟩ := by
      simp [updatePackageJson]
    rw [hrm]
    show lookupTable (removePackage (pj.esm.getD []) pkg) pkg = none
    exact lookupTable_removePackage _ _

/-- Witness for C10: two installed versions of the same package; only
the first matching directory is removed, and the manifest entry is
gone. -/
theorem c10_remove_first_match_witness :
    (removeCommand "w" (some (PackageJson.mk (some [("pkg", "1.0.0")])))
        (fun _ => true) "esm" "pkg" ["other@1", "pkg@1.0.0", "pkg@2.0.0"]).snd
      = some (pathJoin "esm" "pkg@1.0.0")
    ∧ lookupTable (manifestPackages
        (removeCommand "w" (some (PackageJson.mk (some [("pkg", "1.0.0")])))
          (fun _ => true) "esm" "pkg"
          ["other@1", "pkg@1.0.0", "pkg@2.0.0"]).fst.fst) "pkg" = none :=
  ⟨((c10_remove_first_match "w" (some (PackageJson.mk (some [("pkg", "1.0.0")])))
      (fun _ => true) "esm" "pkg" ["other@1", "pkg@1.0.0", "pkg@2.0.0"]).1).trans
      (by rfl),
   (c10_remove_first_match "w" (some (PackageJson.mk (some [("pkg", "1.0.0")])))
      (fun _ => true) "esm" "pkg" ["other@1", "pkg@1.0.0", "pkg@2.0.0"]).2
      (PackageJson.mk (some [("pkg", "1.0.0")])) rfl⟩

/-! ## Theorems: Asset Selector -/

theorem copyAssets_copies_shape :
    ∀ (es : List FsEntry) (srcDir destDir entryDir : String) (ia : Bool),
      entriesNamesOk es = true →
      ∀ p ∈ (copyAssets es srcDir destDir entryDir ia).copies,
        ∃ rel n, (∀ m ∈ rel, slashFree m = true) ∧ slashFree n = true
          ∧ includedAssetsExtensions.contains (extname n) = true
          ∧ p.1 = joinList srcDir (rel ++ [n])
          ∧ p.2 = joinList destDir (rel ++ [n]) := by
  intro es srcDir destDir entryDir ia
  induction es, srcDir, destDir, entryDir, ia using copyAssets.induct with
  | case1 srcDir destDir entryDir ia =>
    intro _ p hp
    simp [copyAssets] at hp
  | case2 name rest srcDir destDir entryDir ia ih =>
    intro hok p hp
    simp only [entriesNamesOk, Bool.and_eq_true] at hok
    simp only [copyAssets, List.mem_append] at hp
    rcases hp with hp | hp
    · split_ifs at hp with h1 h2 h3 h4
      · rw [List.mem_singleton] at hp
        subst hp
        exact ⟨[], name, by simp, hok.1, h2, rfl, rfl⟩
      · simp at hp
      · rw [List.mem_singleton] at hp
        subst hp
        exact ⟨[], name, by simp, hok.1, h3, rfl, rfl⟩
      · simp at hp
      · simp at hp
    · exact ih hok.2 p hp
  | case3 name children rest srcDir destDir entryDir ia srcPath destPath ih_t ih_f ih_rest =>
    intro hok p hp
    simp only [entriesNamesOk, Bool.and_eq_true] at hok
    obtain ⟨⟨hname, hch⟩, hrest⟩ := hok
    simp only [copyAssets, List.mem_append] at hp
    rcases hp with hp | hp
    · split_ifs at hp with h1 h2
      · obtain ⟨rel, n, hrel, hn, hext, h1e, h2e⟩ := ih_t hch p hp
        refine ⟨name :: rel, n, ?_, hn, hext, ?_, ?_⟩
        · intro m hm
          rcases List.mem_cons.mp hm with rfl | hm2
          · exact hname
          · exact hrel m hm2
        · rw [h1e]; rfl
        · rw [h2e]; rfl
      · obtain ⟨rel, n, hrel, hn, hext, h1e, h2e⟩ := ih_f hch p hp
        refine ⟨name :: rel, n, ?_, hn, hext, ?_, ?_⟩
        · intro m hm
          rcases List.mem_cons.mp hm with rfl | hm2
          · exact hname
          · exact hrel m hm2
        · rw [h1e]; rfl
        · rw [h2e]; rfl
      · simp at hp
    · exact ih_rest hrest p hp

theorem copyAssets_scoped_prefix :
    ∀ (es : List FsEntry) (srcDir destDir entryDir : String) (ia : Bool),
      ia = false →
      ∀ p ∈ (copyAssets es srcDir destDir entryDir ia).copies,
        jsStartsWith p.1 entryDir = true := by
  intro es srcDir destDir entryDir ia
  induction es, srcDir, destDir, entryDir, ia using copyAssets.induct with
  | case1 srcDir destDir entryDir ia =>
    intro _ p hp
    simp [copyAssets] at hp
  | case2 name rest srcDir destDir entryDir ia ih =>
    intro hia p hp
    subst hia
    simp only [copyAssets, List.mem_append, Bool.false_eq_true, if_false] at hp
    rcases hp with hp | hp
    · split_ifs at hp with hext hpre
      · rw [List.mem_singleton] at hp
        subst hp
        exact hpre
      · simp at hp
      · simp at hp
    · exact ih rfl p hp
  | case3 name children rest srcDir destDir entryDir ia srcPath destPath ih_t ih_f ih_rest =>
    intro hia p hp
    subst hia
    simp only [copyAssets, List.mem_append, Bool.false_eq_true, if_false] at hp
    rcases hp with hp | hp
    · split_ifs at hp with hpre
      · exact ih_f rfl p hp
      · simp at hp
    · exact ih_rest rfl p hp

theorem copyAssets_excluded_top (es : List FsEntry) (srcDir destDir entryDir : String) :
    ∀ n, FsEntry.file n ∈ es →
      includedAssetsExtensions.contains (extname n) = true →
      jsStartsWith (pathJoin srcDir n) entryDir = false →
      pathJoin srcDir n ∈ (copyAssets es srcDir destDir entryDir false).excluded := by
  intro n hmem hext hout
  induction es with
  | nil => simp at hmem
  | cons e rest ih =>
    rcases List.mem_cons.mp hmem with heq | hmem2
    · subst heq
      simp only [copyAssets, List.mem_append, Bool.false_eq_true, if_false]
      left
      rw [if_pos hext, if_neg (by simp [hout])]
      exact List.mem_singleton.mpr rfl
    · cases e with
      | file m =>
        simp only [copyAssets, List.mem_append, Bool.false_eq_true, if_false]
        right
        exact ih hmem2
      | dir m children =>
        simp only [copyAssets, List.mem_append, Bool.false_eq_true, if_false]
        right
        exact ih hmem2

/-- C2 counterexample: in entryScoped mode, an allow-listed file that
lies outside the entry directory subtree is not always recorded in
excludedAssets — a nested one inside an unvisited outside directory is
silently skipped (first run: excludedAssets is empty although
/p/docs/a.css is an allow-listed file outside the /p/src boundary) —
and such a file can even be copied, because the boundary is a plain
string-prefix test (second run: /p/srcs/b.css lies outside the /p/src
subtree yet is copied to the destination). -/
theorem c2_entry_scoped_counterexample :
    ((copyAssets [FsEntry.dir "docs" [FsEntry.file "a.css"]]
        "/p" "/o" "/p/src" false).excluded = []
      ∧ includedAssetsExtensions.contains (extname "a.css") = true
      ∧ jsStartsWith (pathJoin (pathJoin "/p" "docs") "a.css") "/p/src" = false)
    ∧ ((copyAssets [FsEntry.dir "srcs" [FsEntry.file "b.css"]]
        "/p" "/o" "/p/src" false).copies
          = [(pathJoin (pathJoin "/p" "srcs") "b.css",
              pathJoin (pathJoin "/o" "srcs") "b.css")]
      ∧ jsStartsWith (pathJoin (pathJoin "/p" "srcs") "b.css") ("/p/src" ++ "/")
          = false) := by
  refine ⟨⟨?_, by decide, by decide⟩, ⟨?_, by decide⟩⟩
  · simp only [copyAssets]
    decide
  · simp only [copyAssets]
    decide

/-- C2 amended: in entryScoped mode the boundary is the string-prefix
test of the source path against the entry directory.  Every copied
file passes that test, so a file whose path fails it is never copied
and its destination path does not exist among the destinations after
the run (and, the traversal being total, never causes a failure); it
is recorded in excludedAssets when it is an immediate child of the
source directory, while allow-listed files nested inside unvisited
outside directories are skipped without being recorded. -/
theorem c2_entry_scoped_amended (es : List FsEntry)
    (srcDir destDir entryDir : String) (hok : entriesNamesOk es = true) :
    (∀ p ∈ (copyAssets es srcDir destDir entryDir false).copies,
        jsStartsWith p.1 entryDir = true)
    ∧ (∀ rel n, (∀ m ∈ rel, slashFree m = true) → slashFree n = true →
        jsStartsWith (joinList srcDir (rel ++ [n])) entryDir = false →
        joinList destDir (rel ++ [n]) ∉
          ((copyAssets es srcDir destDir entryDir false).copies).map Prod.snd)
    ∧ (∀ n, FsEntry.file n ∈ es →
        includedAssetsExtensions.contains (extname n) = true →
        jsStartsWith (pathJoin srcDir n) entryDir = false →
        pathJoin srcDir n ∈ (copyAssets es srcDir destDir entryDir false).excluded) := by
  refine ⟨fun p hp =>
      copyAssets_scoped_prefix es srcDir destDir entryDir false rfl p hp,
    ?_, copyAssets_excluded_top es srcDir destDir entryDir⟩
  intro rel n hrel hn hout hmem
  rw [List.mem_map] at hmem
  obtain ⟨p, hp, hsnd⟩ := hmem
  obtain ⟨rel2, n2, hrel2, hn2, _, h1e, h2e⟩ :=
    copyAssets_copies_shape es srcDir destDir entryDir false hok p hp
  have hpre := copyAssets_scoped_prefix es srcDir destDir entryDir false rfl p hp
  have heq : rel2 ++ [n2] = rel ++ [n] := by
    refine @joinList_inj destDir (rel2 ++ [n2]) (rel ++ [n]) ?_ ?_ (h2e.symm.trans hsnd)
    · intro m hm
      rcases List.mem_append.mp hm with h | h
      · exact hrel2 m h
      · rw [List.mem_singleton] at h
        subst h
        exact hn2
    · intro m hm
      rcases List.mem_append.mp hm with h | h
      · exact hrel m h
      · rw [List.mem_singleton] at h
        subst h
        exact hn
  rw [h1e, heq, hout] at hpre
  exact absurd hpre (by simp)

/-- Witness for C2's amended theorem: a top-level outside allow-listed
file is excluded-and-reported, and a nested outside file's destination
path is absent after the run. -/
theorem c2_entry_scoped_amended_witness :
    pathJoin "/p" "x.css" ∈ (copyAssets
        [FsEntry.file "x.css", FsEntry.dir "docs" [FsEntry.file "a.css"]]
        "/p" "/o" "/p/src" false).excluded
    ∧ joinList "/o" (["docs"] ++ ["a.css"]) ∉
        ((copyAssets
          [FsEntry.file "x.css", FsEntry.dir "docs" [FsEntry.file "a.css"]]
          "/p" "/o" "/p/src" false).copies).map Prod.snd := by
  have h := c2_entry_scoped_amended
    [FsEntry.file "x.css", FsEntry.dir "docs" [FsEntry.file "a.css"]]
    "/p" "/o" "/p/src" (by simp [entriesNamesOk]; decide)
  refine ⟨h.2.2 "x.css" ?_ (by decide) (by decide),
    h.2.1 ["docs"] "a.css" ?_ (by decide) (by decide)⟩
  · exact List.mem_cons_self _ _
  · intro m hm
    rw [List.mem_singleton] at hm
    subst hm
    decide

/-- C7: under both inclusion modes, every file the Asset Selector
copies to the destination has an allow-listed extension: for every
logged copy operation, the extension of the destination file name (and
of the source file name) is on the fixed allow-list. -/
theorem c7_only_allowlisted_copied (es : List FsEntry)
    (srcDir destDir entryDir : String) (ia : Bool)
    (hok : entriesNamesOk es = true) :
    ∀ p ∈ (copyAssets es srcDir destDir entryDir ia).copies,
      includedAssetsExtensions.contains (extname (basename p.2)) = true
      ∧ includedAssetsExtensions.contains (extname (basename p.1)) = true := by
  intro p hp
  obtain ⟨rel, n, hrel, hn, hext, h1e, h2e⟩ :=
    copyAssets_copies_shape es srcDir destDir entryDir ia hok p hp
  constructor
  · rw [h2e, joinList_append_single, basename_pathJoin _ _ hn]
    exact hext
  · rw [h1e, joinList_append_single, basename_pathJoin _ _ hn]
    exact hext

/-- Witness for C7: a concrete includeAll run copying one style sheet;
the destination file's extension is on the allow-list. -/
theorem c7_only_allowlisted_copied_witness :
    includedAssetsExtensions.contains (extname (basename (pathJoin "/o" "b.css")))
      = true := by
  have hmem : ((pathJoin "/s" "b.css", pathJoin "/o" "b.css"))
      ∈ (copyAssets [FsEntry.file "b.css"] "/s" "/o" "/e" true).copies := by
    simp only [copyAssets]
    decide
  exact ((c7_only_allowlisted_copied [FsEntry.file "b.css"] "/s" "/o" "/e" true
    (by simp [entriesNamesOk]; decide)) _ hmem).1

end Esmgen
